import Mathlib

/-!
Verification of the Merkle hash tree core of the certificate-transparency
repository (src/src/merkletree/MerkleTree.h).  The header declares the class
and documents the node store; the method bodies (MerkleTree.cc) are not part
of the source tree, so the operations are modelled from the specification
(spec.md sections 4.1-4.5), while the inline bodies present in the header
(LeafCount, the two LeafHash overloads) are translated directly.

The hash collaborator (TreeHasher / SerialHasher) is external to the core and
is modelled as an abstract structure of three functions; the claims hold for
every hasher.  A free (syntactic) hasher over an inductive digest type is used
for concrete witnesses.
-/

namespace Merkle

/-- The external hash collaborator, spec section 6: an empty-tree digest, a
domain-separated leaf hash and a domain-separated children hash over an
opaque digest type `G`, with leaf data of type `D`. -/
structure Hasher (D G : Type) where
  hashEmpty : G
  hashLeaf : D → G
  hashChildren : G → G → G

/-- The largest power of two strictly less than `n`, for `n ≥ 2`
(the split point `k` of the MTH recursion, spec section 4.3).
Recursively: the largest power of two below `n` is twice the largest power
of two below `⌈n/2⌉`. -/
def pow2lt (n : Nat) : Nat :=
  if n ≤ 2 then 1 else 2 * pow2lt ((n + 1) / 2)
termination_by n
decreasing_by omega

theorem pow2lt_pos (n : Nat) : 1 ≤ pow2lt n := by
  rw [pow2lt]
  split
  · exact Nat.le_refl 1
  · have ih := pow2lt_pos ((n + 1) / 2)
    omega
termination_by n
decreasing_by omega

theorem pow2lt_lt (n : Nat) (h : 2 ≤ n) : pow2lt n < n := by
  rw [pow2lt]
  split
  · omega
  · have ih := pow2lt_lt ((n + 1) / 2) (by omega)
    omega
termination_by n
decreasing_by omega

theorem le_two_mul_pow2lt (n : Nat) : n ≤ 2 * pow2lt n := by
  rw [pow2lt]
  split
  · omega
  · have ih := le_two_mul_pow2lt ((n + 1) / 2)
    omega
termination_by n
decreasing_by omega

/-- `pow2lt` is characterised on each dyadic interval: if `2^i < m ≤ 2^(i+1)`
then the largest power of two below `m` is `2^i`. -/
theorem pow2lt_eq_pow (i : Nat) : ∀ m : Nat, 2 ^ i < m → m ≤ 2 ^ (i + 1) → pow2lt m = 2 ^ i := by
  induction i with
  | zero =>
    intro m h1 h2
    simp only [pow_zero, pow_one] at h1 h2
    have hm : m = 2 := by omega
    subst hm
    rw [pow2lt]
    simp
  | succ i ih =>
    intro m h1 h2
    have ha : 2 ^ (i + 1) = 2 * 2 ^ i := by ring
    have hb : 2 ^ (i + 2) = 4 * 2 ^ i := by ring
    have hp : 1 ≤ 2 ^ i := Nat.one_le_two_pow
    rw [pow2lt]
    have hc : ¬ m ≤ 2 := by omega
    rw [if_neg hc]
    rw [ih ((m + 1) / 2) (by omega) (by omega)]
    omega

/-- Every `n ≥ 2` lies in a dyadic interval, so `pow2lt n` is a genuine
power of two sitting strictly below `n` with `n ≤ 2 · pow2lt n`. -/
theorem pow2lt_spec (n : Nat) (h : 2 ≤ n) :
    ∃ i : Nat, pow2lt n = 2 ^ i ∧ 2 ^ i < n ∧ n ≤ 2 ^ (i + 1) := by
  have hlow : 2 ^ Nat.log 2 (n - 1) ≤ n - 1 :=
    Nat.pow_log_le_self 2 (x := n - 1) (by omega)
  have hhigh : n - 1 < 2 ^ (Nat.log 2 (n - 1)).succ :=
    Nat.lt_pow_succ_log_self (b := 2) (by omega) (n - 1)
  refine ⟨Nat.log 2 (n - 1), ?_, by omega, by omega⟩
  exact pow2lt_eq_pow _ n (by omega) (by omega)

/-- The Merkle tree hash of a digest sequence, spec section 4.3: empty
digest for the empty sequence, the lone digest for a singleton, and otherwise
the children-hash of the two halves split at the largest power of two
strictly below the length. -/
def MTH (H : Hasher D G) (l : List G) : G :=
  if h : l.length ≤ 1 then
    match l with
    | [] => H.hashEmpty
    | x :: _ => x
  else
    H.hashChildren (MTH H (l.take (pow2lt l.length)))
      (MTH H (l.drop (pow2lt l.length)))
termination_by l.length
decreasing_by
· have := pow2lt_lt l.length (by omega)
  simp only [List.length_take]
  omega
· have := pow2lt_pos l.length
  simp only [List.length_drop]
  omega

theorem MTH_nil (H : Hasher D G) : MTH H [] = H.hashEmpty := by
  rw [MTH]
  rfl

theorem MTH_singleton (H : Hasher D G) (x : G) : MTH H [x] = x := by
  rw [MTH]
  rfl

theorem MTH_split (H : Hasher D G) (l : List G) (h : 2 ≤ l.length) :
    MTH H l = H.hashChildren (MTH H (l.take (pow2lt l.length)))
      (MTH H (l.drop (pow2lt l.length))) := by
  rw [MTH, dif_neg (by omega)]

/-- One folding step of the lazy root evaluation, spec section 4.2: combine
each pair of adjacent level-`k` nodes with the children hash; a lone unpaired
node at the end of the level is carried up verbatim (not re-hashed). -/
def foldLevel (H : Hasher D G) : List G → List G
  | [] => []
  | [x] => [x]
  | x :: y :: rest => H.hashChildren x y :: foldLevel H rest

theorem foldLevel_length (H : Hasher D G) :
    ∀ l : List G, (foldLevel H l).length = (l.length + 1) / 2
  | [] => by simp [foldLevel]
  | [x] => by simp [foldLevel]
  | x :: y :: rest => by
    simp only [foldLevel, List.length_cons, foldLevel_length H rest]
    omega

/-- A folding step distributes over append at an even boundary. -/
theorem foldLevel_append (H : Hasher D G) :
    ∀ A B : List G, A.length % 2 = 0 →
      foldLevel H (A ++ B) = foldLevel H A ++ foldLevel H B
  | [], _, _ => rfl
  | [x], _, h => by simp at h
  | x :: y :: A', B, h => by
    have h' : A'.length % 2 = 0 := by simp at h; omega
    cases B with
    | nil => simp [foldLevel]
    | cons b B' =>
      simp only [List.cons_append, foldLevel, foldLevel_append H A' (b :: B') h',
        List.append_eq]

/-- The value of each node produced by one folding step: a combination of the
two children below it, or a verbatim copy of a lone unpaired child. -/
theorem foldLevel_getD (H : Hasher D G) (d : G) :
    ∀ (l : List G) (j : Nat), j < (foldLevel H l).length →
      (foldLevel H l).getD j d =
        if 2 * j + 1 < l.length then
          H.hashChildren (l.getD (2 * j) d) (l.getD (2 * j + 1) d)
        else l.getD (2 * j) d
  | [], j, h => by simp [foldLevel] at h
  | [x], j, h => by
    simp only [foldLevel, List.length_cons, List.length_nil] at h ⊢
    have hj : j = 0 := by omega
    subst hj
    rw [if_neg (by omega)]
  | x :: y :: rest, 0, h => by
    simp [foldLevel]
  | x :: y :: rest, j + 1, h => by
    have h' : j < (foldLevel H rest).length := by
      simp only [foldLevel, List.length_cons] at h
      omega
    have ih := foldLevel_getD H d rest j h'
    show (H.hashChildren x y :: foldLevel H rest).getD (j + 1) d = _
    rw [List.getD_cons_succ, ih]
    have e1 : (x :: y :: rest).getD (2 * (j + 1)) d = rest.getD (2 * j) d := by
      rw [show 2 * (j + 1) = 2 * j + 1 + 1 by omega, List.getD_cons_succ,
        List.getD_cons_succ]
    have e2 : (x :: y :: rest).getD (2 * (j + 1) + 1) d = rest.getD (2 * j + 1) d := by
      rw [show 2 * (j + 1) + 1 = 2 * j + 1 + 1 + 1 by omega, List.getD_cons_succ,
        List.getD_cons_succ]
    rw [e1, e2]
    by_cases hc : 2 * j + 1 < rest.length
    · rw [if_pos hc, if_pos (by simp only [List.length_cons]; omega)]
    · rw [if_neg hc, if_neg (by simp only [List.length_cons]; omega)]

/-- Level `k` of the fully folded store over leaf level `l`:
`k` iterations of the folding step. -/
def levelK (H : Hasher D G) (l : List G) : Nat → List G
  | 0 => l
  | k + 1 => foldLevel H (levelK H l k)

theorem levelK_foldLevel (H : Hasher D G) (l : List G) :
    ∀ k : Nat, levelK H (foldLevel H l) k = levelK H l (k + 1)
  | 0 => rfl
  | k + 1 => by
    simp only [levelK, levelK_foldLevel H l k]

/-- Ceiling division composes across one halving step. -/
theorem ceil_half_pow (k : Nat) : ∀ m : Nat,
    ((m + 1) / 2 + 2 ^ k - 1) / 2 ^ k = (m + 2 ^ (k + 1) - 1) / 2 ^ (k + 1) := by
  intro m
  have hp : 1 ≤ 2 ^ k := Nat.one_le_two_pow
  have hps : 2 ^ (k + 1) = 2 * 2 ^ k := by ring
  cases m with
  | zero =>
    rw [Nat.div_eq_of_lt (by omega), Nat.div_eq_of_lt (by omega)]
  | succ m' =>
    have h1 : (m' + 1 + 1) / 2 = m' / 2 + 1 := by omega
    have h2 : m' / 2 + 1 + 2 ^ k - 1 = m' / 2 + 2 ^ k := by omega
    rw [h1, h2, Nat.add_div_right _ (by omega),
      Nat.div_div_eq_div_mul, hps]
    have h3 : m' + 1 + 2 * 2 ^ k - 1 = m' + 2 * 2 ^ k := by omega
    rw [h3, Nat.add_div_right _ (by omega), Nat.mul_comm 2 (2 ^ k)]

/-- Level `k` of the folded store holds exactly `⌈n / 2^k⌉` nodes, for `n`
the leaf count (spec section 3 invariant). -/
theorem levelK_length (H : Hasher D G) (l : List G) :
    ∀ k : Nat, (levelK H l k).length = (l.length + 2 ^ k - 1) / 2 ^ k
  | 0 => by simp [levelK]
  | k + 1 => by
    rw [show levelK H l (k + 1) = levelK H (foldLevel H l) k from
        (levelK_foldLevel H l k).symm,
      levelK_length H (foldLevel H l) k, foldLevel_length H l, ceil_half_pow k l.length]

theorem levelK_length_dvd (H : Hasher D G) (l : List G) :
    ∀ k : Nat, 2 ^ k ∣ l.length → (levelK H l k).length = l.length / 2 ^ k
  | 0, _ => by simp [levelK]
  | k + 1, hdvd => by
    obtain ⟨c, hc⟩ := hdvd
    have hlen : (levelK H l k).length = l.length / 2 ^ k :=
      levelK_length_dvd H l k ⟨2 * c, by rw [hc]; ring⟩
    have hdiv : l.length / 2 ^ k = 2 * c := by
      rw [hc, show 2 ^ (k + 1) * c = 2 ^ k * (2 * c) by ring,
        Nat.mul_div_cancel_left _ (Nat.two_pow_pos k)]
    have hdiv2 : l.length / 2 ^ (k + 1) = c := by
      rw [hc, Nat.mul_div_cancel_left _ (Nat.two_pow_pos (k + 1))]
    simp only [levelK, foldLevel_length, hlen, hdiv, hdiv2]
    omega

/-- Folded levels distribute over an append whose boundary is aligned to
`2^k`: nodes left of the boundary never depend on leaves right of it.  This
is the frozen-subtree property of the append-only store. -/
theorem levelK_append (H : Hasher D G) (A B : List G) :
    ∀ k : Nat, 2 ^ k ∣ A.length →
      levelK H (A ++ B) k = levelK H A k ++ levelK H B k
  | 0, _ => rfl
  | k + 1, hdvd => by
    have hdvd' : 2 ^ k ∣ A.length := by
      exact Dvd.dvd.trans ⟨2, by ring⟩ hdvd
    have heven : (levelK H A k).length % 2 = 0 := by
      obtain ⟨c, hc⟩ := hdvd
      rw [levelK_length_dvd H A k hdvd', hc,
        show 2 ^ (k + 1) * c = 2 ^ k * (2 * c) by ring,
        Nat.mul_div_cancel_left _ (Nat.two_pow_pos k)]
      omega
    show foldLevel H (levelK H (A ++ B) k) = _
    rw [levelK_append H A B k hdvd', foldLevel_append H _ _ heven]
    rfl

/-- The node store materialised bottom-up, spec section 4.2: level 0 is the
leaf level; each following level is one folding step of the previous one;
folding stops once a level has at most one node. -/
def buildLevels (H : Hasher D G) (l : List G) : List (List G) :=
  if h : l.length ≤ 1 then [l]
  else l :: buildLevels H (foldLevel H l)
termination_by l.length
decreasing_by
· rw [foldLevel_length]
  omega

theorem buildLevels_ne_nil (H : Hasher D G) (l : List G) : buildLevels H l ≠ [] := by
  rw [buildLevels]
  split <;> simp

theorem buildLevels_cons (H : Hasher D G) (l : List G) :
    ∃ r : List (List G), buildLevels H l = l :: r := by
  rw [buildLevels]
  split
  · exact ⟨[], rfl⟩
  · exact ⟨_, rfl⟩

/-- Each materialised level of the store is the corresponding iterated
folding of the leaf level. -/
theorem buildLevels_getD (H : Hasher D G) (l : List G) :
    ∀ k : Nat, k < (buildLevels H l).length →
      (buildLevels H l).getD k [] = levelK H l k := by
  intro k hk
  rw [buildLevels] at hk ⊢
  by_cases h1 : l.length ≤ 1
  · rw [dif_pos h1] at hk ⊢
    simp only [List.length_cons, List.length_nil] at hk
    have hk0 : k = 0 := by omega
    subst hk0
    rfl
  · rw [dif_neg h1] at hk ⊢
    cases k with
    | zero => rfl
    | succ k =>
      simp only [List.length_cons] at hk
      rw [List.getD_cons_succ,
        buildLevels_getD H (foldLevel H l) k (by omega),
        levelK_foldLevel]
termination_by l.length
decreasing_by
· rw [foldLevel_length]
  omega

/-- The root digest by bottom-up folding, spec section 4.2: fold level by
level until a single node remains; the empty tree's root is the empty hash. -/
def foldRoot (H : Hasher D G) (l : List G) : G :=
  match l with
  | [] => H.hashEmpty
  | [x] => x
  | x :: y :: rest => foldRoot H (foldLevel H (x :: y :: rest))
termination_by l.length
decreasing_by
· rw [foldLevel_length]
  simp only [List.length_cons]
  omega

/-- The top node of the materialised store is the bottom-up root. -/
theorem buildLevels_top (H : Hasher D G) (l : List G) :
    ((buildLevels H l).getLastD []).headD H.hashEmpty = foldRoot H l := by
  by_cases h1 : l.length ≤ 1
  · rw [buildLevels, dif_pos h1]
    cases l with
    | nil => simp [foldRoot]
    | cons x t =>
      cases t with
      | nil => simp [foldRoot]
      | cons y rest => simp at h1
  · rw [buildLevels, dif_neg h1, List.getLastD_cons]
    have hne := buildLevels_ne_nil H (foldLevel H l)
    have hgl : (buildLevels H (foldLevel H l)).getLastD l
        = (buildLevels H (foldLevel H l)).getLastD [] := by
      cases hb : buildLevels H (foldLevel H l) with
      | nil => exact absurd hb hne
      | cons a r => rw [List.getLastD_cons, List.getLastD_cons]
    rw [hgl, buildLevels_top H (foldLevel H l)]
    cases l with
    | nil => simp at h1
    | cons x t =>
      cases t with
      | nil => simp at h1
      | cons y rest =>
        conv_rhs => rw [foldRoot]
termination_by l.length
decreasing_by
· rw [foldLevel_length]
  omega

/-- A level with at most one node is left unchanged by a folding step. -/
theorem foldLevel_short (H : Hasher D G) (l : List G) (h : l.length ≤ 1) :
    foldLevel H l = l := by
  cases l with
  | nil => rfl
  | cons x t =>
    cases t with
    | nil => rfl
    | cons y rest => simp at h

theorem MTH_foldLevel_two (H : Hasher D G) (l : List G) (h : l.length = 2) :
    MTH H (foldLevel H l) = MTH H l := by
  cases l with
  | nil => simp at h
  | cons x t =>
    cases t with
    | nil => simp at h
    | cons y u =>
      cases u with
      | nil =>
        have hp : pow2lt ([x, y] : List G).length = 1 := by
          rw [show ([x, y] : List G).length = 2 from rfl, pow2lt]
          simp
        rw [show foldLevel H [x, y] = [H.hashChildren x y] from rfl,
          MTH_singleton, MTH_split H [x, y] (by simp), hp]
        simp [MTH_singleton]
      | cons z rest => simp at h

/-- Crux of root correctness: one folding step preserves the Merkle tree
hash.  The split point of `MTH` is the largest power of two below the
length, which is exactly where the pairwise fold of a level splits. -/
theorem MTH_foldLevel (H : Hasher D G) (l : List G) :
    MTH H (foldLevel H l) = MTH H l := by
  suffices hgen : ∀ (n : Nat) (l : List G), l.length = n →
      MTH H (foldLevel H l) = MTH H l from hgen l.length l rfl
  intro n
  induction n using Nat.strong_induction_on with
  | _ n ih =>
    intro l hln
    by_cases h1 : l.length ≤ 1
    · rw [foldLevel_short H l h1]
    · by_cases h2 : l.length = 2
      · exact MTH_foldLevel_two H l h2
      · have hn : 3 ≤ l.length := by omega
        obtain ⟨i, hpow, hlt, hle⟩ := pow2lt_spec l.length (by omega)
        set k := pow2lt l.length with hk
        have hi : 1 ≤ i := by
          by_contra hi0
          have hz : i = 0 := by omega
          subst hz
          simp only [pow_zero, pow_one] at hlt hle
          omega
        obtain ⟨i', rfl⟩ : ∃ i', i = i' + 1 := ⟨i - 1, by omega⟩
        have hkeven : k % 2 = 0 := by
          rw [hpow, pow_succ]
          omega
        have hk2 : 2 ≤ k := by
          have hmono : 2 ^ 1 ≤ 2 ^ (i' + 1) := Nat.pow_le_pow_right (by omega) (by omega)
          rw [hpow]
          simpa using hmono
        have hklen : k < l.length := by omega
        have hlen2k : l.length ≤ 2 * k := by
          rw [hpow, ← pow_succ']
          exact hle
        -- split the level at the power-of-two boundary
        have hsplit : foldLevel H l
            = foldLevel H (l.take k) ++ foldLevel H (l.drop k) := by
          rw [← foldLevel_append H _ _ (by rw [List.length_take]; omega),
            List.take_append_drop]
        have htlen : (l.take k).length = k := by rw [List.length_take]; omega
        have hflen : (foldLevel H (l.take k)).length = k / 2 := by
          rw [foldLevel_length, htlen]
          omega
        have hfull : (foldLevel H l).length = (l.length + 1) / 2 :=
          foldLevel_length H l
        have hmid : k / 2 < (foldLevel H l).length ∧ (foldLevel H l).length ≤ k := by
          rw [hfull]
          omega
        -- the split point of the folded level is half the split point below
        have hkhalf : k / 2 = 2 ^ i' := by
          rw [hpow, pow_succ]
          omega
        have hpowfold : pow2lt (foldLevel H l).length = k / 2 := by
          rw [hkhalf]
          exact pow2lt_eq_pow i' _ (by omega) (by rw [← hpow]; omega)
        have htake : (foldLevel H l).take (k / 2) = foldLevel H (l.take k) := by
          rw [hsplit, List.take_left' hflen]
        have hdrop : (foldLevel H l).drop (k / 2) = foldLevel H (l.drop k) := by
          rw [hsplit, List.drop_left' hflen]
        rw [MTH_split H (foldLevel H l) (by omega), hpowfold, htake, hdrop,
          ih (l.take k).length (by rw [htlen]; omega) (l.take k) rfl,
          ih (l.drop k).length (by rw [List.length_drop]; omega) (l.drop k) rfl,
          MTH_split H l (by omega)]

/-- The bottom-up fold of the whole leaf level computes the Merkle tree
hash (root correctness, spec section 8). -/
theorem foldRoot_eq_MTH (H : Hasher D G) (l : List G) :
    foldRoot H l = MTH H l := by
  match l with
  | [] => simp only [foldRoot, MTH_nil]
  | [x] => simp only [foldRoot, MTH_singleton]
  | x :: y :: rest =>
    have hstep : foldRoot H (x :: y :: rest)
        = foldRoot H (foldLevel H (x :: y :: rest)) := by
      conv_lhs => rw [foldRoot]
    rw [hstep, foldRoot_eq_MTH H (foldLevel H (x :: y :: rest)), MTH_foldLevel]
termination_by l.length
decreasing_by
· rw [foldLevel_length]
  simp only [List.length_cons]
  omega

/-- Which branch of the proof-generating recursion emitted an entry, and
hence how a verifier combines it with the running digest (spec sections
4.4 and 4.5): a right sibling combines as `HashChildren(running, entry)`,
a left sibling as `HashChildren(entry, running)`, and a revealed subtree
root (the non-complete base case of SUBPROOF) replaces the running value. -/
inductive Side where
  | rightSib : Side
  | leftSib : Side
  | anchor : Side
deriving DecidableEq

/-- The verifier's fold, spec sections 4.4 and 4.5: combine the running
digest with each proof entry in order, on the side determined by the branch
that emitted the entry. -/
def foldProof (H : Hasher D G) : G → List G → List Side → G
  | r, [], _ => r
  | r, _ :: _, [] => r
  | r, e :: es, Side.rightSib :: ss => foldProof H (H.hashChildren r e) es ss
  | r, e :: es, Side.leftSib :: ss => foldProof H (H.hashChildren e r) es ss
  | _, e :: es, Side.anchor :: ss => foldProof H e es ss

theorem foldProof_concat_right (H : Hasher D G) :
    ∀ (es : List G) (ss : List Side) (r e : G), es.length = ss.length →
      foldProof H r (es ++ [e]) (ss ++ [Side.rightSib])
        = H.hashChildren (foldProof H r es ss) e
  | [], [], r, e, _ => rfl
  | [], s :: ss, r, e, h => by simp at h
  | x :: es, [], r, e, h => by simp at h
  | x :: es, Side.rightSib :: ss, r, e, h => by
    simp only [List.cons_append, foldProof]
    exact foldProof_concat_right H es ss _ e (by simpa using h)
  | x :: es, Side.leftSib :: ss, r, e, h => by
    simp only [List.cons_append, foldProof]
    exact foldProof_concat_right H es ss _ e (by simpa using h)
  | x :: es, Side.anchor :: ss, r, e, h => by
    simp only [List.cons_append, foldProof]
    exact foldProof_concat_right H es ss _ e (by simpa using h)

theorem foldProof_concat_left (H : Hasher D G) :
    ∀ (es : List G) (ss : List Side) (r e : G), es.length = ss.length →
      foldProof H r (es ++ [e]) (ss ++ [Side.leftSib])
        = H.hashChildren e (foldProof H r es ss)
  | [], [], r, e, _ => rfl
  | [], s :: ss, r, e, h => by simp at h
  | x :: es, [], r, e, h => by simp at h
  | x :: es, Side.rightSib :: ss, r, e, h => by
    simp only [List.cons_append, foldProof]
    exact foldProof_concat_left H es ss _ e (by simpa using h)
  | x :: es, Side.leftSib :: ss, r, e, h => by
    simp only [List.cons_append, foldProof]
    exact foldProof_concat_left H es ss _ e (by simpa using h)
  | x :: es, Side.anchor :: ss, r, e, h => by
    simp only [List.cons_append, foldProof]
    exact foldProof_concat_left H es ss _ e (by simpa using h)

/-- The inclusion path of the 0-based leaf `idx` inside the first `n` leaf
digests, spec section 4.4: empty for a single-node subtree; otherwise
recurse into the half containing the leaf and append the Merkle hash of the
other half. -/
def PATH (H : Hasher D G) (idx : Nat) (l : List G) : List G :=
  if h : l.length ≤ 1 then []
  else if idx < pow2lt l.length then
    PATH H idx (l.take (pow2lt l.length)) ++ [MTH H (l.drop (pow2lt l.length))]
  else
    PATH H (idx - pow2lt l.length) (l.drop (pow2lt l.length))
      ++ [MTH H (l.take (pow2lt l.length))]
termination_by l.length
decreasing_by
· have := pow2lt_lt l.length (by omega)
  simp only [List.length_take]
  omega
· have := pow2lt_pos l.length
  simp only [List.length_drop]
  omega

/-- The branch sequence of `PATH` (which side each emitted entry lies on),
determined by the leaf index and the subtree size alone. -/
def pathSides (idx n : Nat) : List Side :=
  if h : n ≤ 1 then []
  else if idx < pow2lt n then pathSides idx (pow2lt n) ++ [Side.rightSib]
  else pathSides (idx - pow2lt n) (n - pow2lt n) ++ [Side.leftSib]
termination_by n
decreasing_by
· exact pow2lt_lt n (by omega)
· have := pow2lt_pos n
  omega

theorem PATH_length (H : Hasher D G) (idx : Nat) (l : List G) :
    (PATH H idx l).length = (pathSides idx l.length).length := by
  rw [PATH, pathSides]
  by_cases h1 : l.length ≤ 1
  · rw [dif_pos h1, dif_pos h1]
    rfl
  · rw [dif_neg h1, dif_neg h1]
    by_cases h2 : idx < pow2lt l.length
    · rw [if_pos h2, if_pos h2]
      simp only [List.length_append, List.length_cons, List.length_nil]
      rw [PATH_length H idx (l.take (pow2lt l.length)), List.length_take,
        Nat.min_eq_left (le_of_lt (pow2lt_lt l.length (by omega)))]
    · rw [if_neg h2, if_neg h2]
      simp only [List.length_append, List.length_cons, List.length_nil]
      rw [PATH_length H (idx - pow2lt l.length) (l.drop (pow2lt l.length)),
        List.length_drop]
termination_by l.length
decreasing_by
· have := pow2lt_lt l.length (by omega)
  simp only [List.length_take]
  omega
· have := pow2lt_pos l.length
  simp only [List.length_drop]
  omega

/-- Inclusion soundness, core form (spec section 8): folding the leaf's own
digest through its inclusion path, with the sides the branches dictate,
rebuilds the Merkle tree hash of the whole digest sequence. -/
theorem PATH_fold (H : Hasher D G) (idx : Nat) (l : List G) (d : G)
    (hd : l[idx]? = some d) :
    foldProof H d (PATH H idx l) (pathSides idx l.length) = MTH H l := by
  have hlt : idx < l.length := by
    rcases List.getElem?_eq_some.mp hd with ⟨hw, _⟩
    exact hw
  rw [PATH, pathSides]
  by_cases h1 : l.length ≤ 1
  · rw [dif_pos h1, dif_pos h1]
    match l, hd, h1 with
    | [x], hdx, _ =>
      have hx : d = x := by
        have h0 : idx = 0 := by
          rcases List.getElem?_eq_some.mp hdx with ⟨hw, _⟩
          simp at hw
          omega
        subst h0
        simpa using hdx.symm
      subst hx
      rw [MTH_singleton]
      rfl
  · rw [dif_neg h1, dif_neg h1]
    have hk1 := pow2lt_pos l.length
    have hklt := pow2lt_lt l.length (by omega)
    have htlen : (l.take (pow2lt l.length)).length = pow2lt l.length := by
      rw [List.length_take]
      omega
    by_cases h2 : idx < pow2lt l.length
    · rw [if_pos h2, if_pos h2]
      rw [foldProof_concat_right H _ _ _ _
        (by rw [PATH_length H idx (l.take (pow2lt l.length)), htlen])]
      have hrec := PATH_fold H idx (l.take (pow2lt l.length)) d
        (by rw [List.getElem?_take_of_lt h2]; exact hd)
      rw [htlen] at hrec
      rw [hrec, ← MTH_split H l (by omega)]
    · rw [if_neg h2, if_neg h2]
      rw [foldProof_concat_left H _ _ _ _
        (by rw [PATH_length H (idx - pow2lt l.length) (l.drop (pow2lt l.length)),
          List.length_drop])]
      have hrec := PATH_fold H (idx - pow2lt l.length) (l.drop (pow2lt l.length)) d
        (by rw [List.getElem?_drop,
          show pow2lt l.length + (idx - pow2lt l.length) = idx by omega]
            ; exact hd)
      rw [List.length_drop] at hrec
      rw [hrec, ← MTH_split H l (by omega)]
termination_by l.length
decreasing_by
· simp only [List.length_take]
  omega
· simp only [List.length_drop]
  omega

/-- The consistency subproof, spec section 4.5: `SUBPROOF(m, D[0:n],
complete)` with `complete` tracking whether the subtree under consideration
is exactly a historical root sealed by a power-of-two boundary.  The first
guard totalises the function; `SnapshotConsistency` only calls it with
`1 ≤ m ≤ n`. -/
def SUBPROOF (H : Hasher D G) (m : Nat) (l : List G) (complete : Bool) : List G :=
  if h0 : m = 0 ∨ l.length < m then []
  else if hm : m = l.length then
    if complete then [] else [MTH H l]
  else if m ≤ pow2lt l.length then
    SUBPROOF H m (l.take (pow2lt l.length)) complete
      ++ [MTH H (l.drop (pow2lt l.length))]
  else
    SUBPROOF H (m - pow2lt l.length) (l.drop (pow2lt l.length)) false
      ++ [MTH H (l.take (pow2lt l.length))]
termination_by l.length
decreasing_by
· have h2 : 2 ≤ l.length := by omega
  have := pow2lt_lt l.length h2
  simp only [List.length_take]
  omega
· have := pow2lt_pos l.length
  simp only [List.length_drop]
  omega

/-- The branch sequence of `SUBPROOF`, determined by the two snapshots and
the `complete` flag alone: the non-complete base case reveals the subtree
root (an anchor entry), the left-descend branch emits a right sibling and
the right-descend branch a left sibling. -/
def subproofSides (m n : Nat) (complete : Bool) : List Side :=
  if h0 : m = 0 ∨ n < m then []
  else if hm : m = n then
    if complete then [] else [Side.anchor]
  else if m ≤ pow2lt n then
    subproofSides m (pow2lt n) complete ++ [Side.rightSib]
  else
    subproofSides (m - pow2lt n) (n - pow2lt n) false ++ [Side.leftSib]
termination_by n
decreasing_by
· have h2 : 2 ≤ n := by omega
  exact pow2lt_lt n h2
· have := pow2lt_pos n
  omega

theorem SUBPROOF_length (H : Hasher D G) (m : Nat) (l : List G) (c : Bool) :
    (SUBPROOF H m l c).length = (subproofSides m l.length c).length := by
  rw [SUBPROOF, subproofSides]
  by_cases h0 : m = 0 ∨ l.length < m
  · rw [dif_pos h0, dif_pos h0]
    rfl
  · rw [dif_neg h0, dif_neg h0]
    by_cases hm : m = l.length
    · rw [dif_pos hm, dif_pos hm]
      cases c <;> rfl
    · rw [dif_neg hm, dif_neg hm]
      have hk1 := pow2lt_pos l.length
      have hklt := pow2lt_lt l.length (by omega)
      have htlen : (l.take (pow2lt l.length)).length = pow2lt l.length := by
        rw [List.length_take]
        omega
      by_cases h2 : m ≤ pow2lt l.length
      · rw [if_pos h2, if_pos h2]
        simp only [List.length_append, List.length_cons, List.length_nil]
        rw [SUBPROOF_length H m (l.take (pow2lt l.length)) c, htlen]
      · rw [if_neg h2, if_neg h2]
        simp only [List.length_append, List.length_cons, List.length_nil]
        rw [SUBPROOF_length H (m - pow2lt l.length) (l.drop (pow2lt l.length)) false,
          List.length_drop]
termination_by l.length
decreasing_by
· have h2 : 2 ≤ l.length := by omega
  have := pow2lt_lt l.length h2
  simp only [List.length_take]
  omega
· have := pow2lt_pos l.length
  simp only [List.length_drop]
  omega

/-- Consistency soundness, core form (spec section 8): folding through a
subproof, with the sides its branches dictate, rebuilds the Merkle tree hash
of the full digest sequence.  When `complete` is set the running value must
be the sealed subtree root, i.e. the Merkle hash of the first `m` digests;
when `complete` is not set the subproof starts with an anchor entry, so the
initial running value is irrelevant. -/
theorem SUBPROOF_fold (H : Hasher D G) (m : Nat) (l : List G) (c : Bool) (r : G)
    (hm1 : 1 ≤ m) (hmn : m ≤ l.length)
    (hc : c = true → r = MTH H (l.take m)) :
    foldProof H r (SUBPROOF H m l c) (subproofSides m l.length c) = MTH H l := by
  rw [SUBPROOF, subproofSides]
  have h0 : ¬ (m = 0 ∨ l.length < m) := by omega
  rw [dif_neg h0, dif_neg h0]
  by_cases hm : m = l.length
  · rw [dif_pos hm, dif_pos hm]
    cases c with
    | true =>
      have hr := hc rfl
      rw [hm, List.take_length] at hr
      simpa [foldProof] using hr
    | false =>
      simp [foldProof]
  · rw [dif_neg hm, dif_neg hm]
    have hn2 : 2 ≤ l.length := by omega
    have hk1 := pow2lt_pos l.length
    have hklt := pow2lt_lt l.length hn2
    have htlen : (l.take (pow2lt l.length)).length = pow2lt l.length := by
      rw [List.length_take]
      omega
    by_cases h2 : m ≤ pow2lt l.length
    · rw [if_pos h2, if_pos h2]
      rw [foldProof_concat_right H _ _ _ _
        (by rw [SUBPROOF_length H m (l.take (pow2lt l.length)) c, htlen])]
      have hrec := SUBPROOF_fold H m (l.take (pow2lt l.length)) c r hm1
        (by omega)
        (by
          intro hct
          rw [hc hct, List.take_take, Nat.min_eq_left h2])
      rw [htlen] at hrec
      rw [hrec, ← MTH_split H l hn2]
    · rw [if_neg h2, if_neg h2]
      rw [foldProof_concat_left H _ _ _ _
        (by rw [SUBPROOF_length H (m - pow2lt l.length) (l.drop (pow2lt l.length)) false,
          List.length_drop])]
      have hrec := SUBPROOF_fold H (m - pow2lt l.length) (l.drop (pow2lt l.length))
        false r (by omega) (by rw [List.length_drop]; omega) (by intro hct; cases hct)
      rw [List.length_drop] at hrec
      rw [hrec, ← MTH_split H l hn2]
termination_by l.length
decreasing_by
· simp only [List.length_take]
  omega
· simp only [List.length_drop]
  omega

/-- The MerkleTree class state (MerkleTree.h lines 126-163): the level-
indexed node store `tree` (level 0 first), the owned hasher, the lazy-
evaluation cursor `leavesProcessed` and the cached materialised level count
`levelCount`. -/
structure MerkleTree (D G : Type) where
  hasher : Hasher D G
  tree : List (List G)
  leavesProcessed : Nat
  levelCount : Nat

/-- A freshly constructed tree: empty store, nothing processed. -/
def emptyTree (H : Hasher D G) : MerkleTree D G :=
  { hasher := H, tree := [], leavesProcessed := 0, levelCount := 0 }

/-- `MerkleTree::LeafCount` (MerkleTree.h line 33, inline in the header):
`tree_.empty() ? 0 : tree_[0].size()`. -/
def LeafCount (t : MerkleTree D G) : Nat :=
  match t.tree with
  | [] => 0
  | l0 :: _ => l0.length

/-- The leaf level of the store (`tree_[0]`, or nothing for an empty store). -/
def level0 (t : MerkleTree D G) : List G :=
  t.tree.headD []

theorem LeafCount_eq_length_level0 (t : MerkleTree D G) :
    LeafCount t = (level0 t).length := by
  cases ht : t.tree <;> simp [LeafCount, level0, ht]

/-- `MerkleTree::LeafHash(size_t)` (MerkleTree.h lines 36-40, inline in the
header): the stored digest of the 1-based `leaf`, or the empty result for
index 0 or an index beyond the leaf count. -/
def LeafHashIdx (t : MerkleTree D G) (leaf : Nat) : Option G :=
  if leaf = 0 ∨ LeafCount t < leaf then none
  else (level0 t)[leaf - 1]?

/-- `MerkleTree::LeafHash(const bstring&)` (MerkleTree.h lines 43-45, inline
in the header): `return treehasher_.HashLeaf(data);` — the state is passed
through untouched. -/
def LeafHashData (t : MerkleTree D G) (data : D) : MerkleTree D G × G :=
  (t, t.hasher.hashLeaf data)

/-- Modelled from the spec: `MerkleTree::AddLeaf` (declared at MerkleTree.h
line 61; the body, in MerkleTree.cc, is not in the source tree).  Spec
section 4.1: compute `HashLeaf(data)`, append it to level 0, touch no level
above 0, and return the new 1-based position. -/
def AddLeaf (t : MerkleTree D G) (data : D) : MerkleTree D G × Nat :=
  let digest := t.hasher.hashLeaf data
  match t.tree with
  | [] => ({ t with tree := [[digest]] }, 1)
  | l0 :: rest => ({ t with tree := (l0 ++ [digest]) :: rest }, l0.length + 1)

/-- Append a whole sequence of leaf records in order. -/
def addLeaves (t : MerkleTree D G) (ds : List D) : MerkleTree D G :=
  ds.foldl (fun a d => (AddLeaf a d).1) t

/-- Modelled from the spec: the folding pass of `MerkleTree::CurrentRoot` /
`UpdateToSnapshot` (declared at MerkleTree.h lines 69 and 115; bodies not in
the source tree).  Spec section 4.2: bring the store up to date for the
current leaf count by folding level by level, and record the cursor and the
materialised level count. -/
def updateTree (t : MerkleTree D G) : MerkleTree D G :=
  match t.tree with
  | [] => { t with leavesProcessed := 0, levelCount := 0 }
  | l0 :: _ =>
    let levels := buildLevels t.hasher l0
    { t with
        tree := levels
        leavesProcessed := l0.length
        levelCount := levels.length }

/-- Modelled from the spec: `MerkleTree::CurrentRoot` (declared at
MerkleTree.h line 69; body not in the source tree).  Spec section 4.2: fold
the store up to date, then return the top node; the empty tree returns
`HashEmpty()`. -/
def CurrentRoot (t : MerkleTree D G) : MerkleTree D G × G :=
  let u := updateTree t
  (u, (u.tree.getLastD []).headD t.hasher.hashEmpty)

/-- Modelled from the spec: `MerkleTree::RootAtSnapshot` (declared at
MerkleTree.h line 79; body not in the source tree).  Spec section 4.3: the
empty result for a snapshot in the future, otherwise `MTH` of the first
`m` leaf digests. -/
def RootAtSnapshot (t : MerkleTree D G) (m : Nat) : Option G :=
  if LeafCount t < m then none
  else some (MTH t.hasher ((level0 t).take m))

/-- Modelled from the spec: `MerkleTree::PathToRootAtSnapshot` (declared at
MerkleTree.h line 102; body not in the source tree).  Spec section 4.4: the
empty sequence when `leaf = 0`, `leaf > snapshot` or the snapshot is in the
future; otherwise the recursive path of 0-based leaf `leaf - 1` through the
first `snapshot` leaf digests. -/
def PathToRootAtSnapshot (t : MerkleTree D G) (leaf snapshot : Nat) : List G :=
  if leaf = 0 ∨ snapshot < leaf ∨ LeafCount t < snapshot then []
  else PATH t.hasher (leaf - 1) ((level0 t).take snapshot)

/-- Modelled from the spec: `MerkleTree::SnapshotConsistency` (declared at
MerkleTree.h line 111; body not in the source tree).  Spec section 4.5: the
empty sequence when `snapshot1 = 0`, `snapshot1 ≥ snapshot2` or `snapshot2`
is in the future; otherwise `SUBPROOF(snapshot1, D[0:snapshot2], true)`. -/
def SnapshotConsistency (t : MerkleTree D G) (s1 s2 : Nat) : List G :=
  if s1 = 0 ∨ s2 ≤ s1 ∨ LeafCount t < s2 then []
  else SUBPROOF t.hasher s1 ((level0 t).take s2) true

theorem AddLeaf_hasher (t : MerkleTree D G) (d : D) :
    (AddLeaf t d).1.hasher = t.hasher := by
  rw [AddLeaf]
  cases ht : t.tree <;> simp

theorem AddLeaf_level0 (t : MerkleTree D G) (d : D) :
    level0 (AddLeaf t d).1 = level0 t ++ [t.hasher.hashLeaf d] := by
  rw [AddLeaf]
  cases ht : t.tree <;> simp [level0, ht]

theorem AddLeaf_tail (t : MerkleTree D G) (d : D) :
    (AddLeaf t d).1.tree.tail = t.tree.tail := by
  rw [AddLeaf]
  cases ht : t.tree <;> simp [ht]

theorem addLeaves_hasher (t : MerkleTree D G) (ds : List D) :
    (addLeaves t ds).hasher = t.hasher := by
  induction ds generalizing t with
  | nil => rfl
  | cons d ds ih =>
    show (addLeaves (AddLeaf t d).1 ds).hasher = t.hasher
    rw [ih, AddLeaf_hasher]

theorem addLeaves_level0 (t : MerkleTree D G) (ds : List D) :
    level0 (addLeaves t ds) = level0 t ++ ds.map t.hasher.hashLeaf := by
  induction ds generalizing t with
  | nil => simp [addLeaves]
  | cons d ds ih =>
    show level0 (addLeaves (AddLeaf t d).1 ds) = _
    rw [ih, AddLeaf_level0, AddLeaf_hasher]
    simp

theorem addLeaves_LeafCount (t : MerkleTree D G) (ds : List D) :
    LeafCount (addLeaves t ds) = LeafCount t + ds.length := by
  rw [LeafCount_eq_length_level0, addLeaves_level0, List.length_append,
    List.length_map, LeafCount_eq_length_level0]

theorem updateTree_hasher (t : MerkleTree D G) :
    (updateTree t).hasher = t.hasher := by
  rw [updateTree]
  cases ht : t.tree <;> simp

theorem updateTree_level0 (t : MerkleTree D G) :
    level0 (updateTree t) = level0 t := by
  rw [updateTree]
  cases ht : t.tree with
  | nil => simp [level0, ht]
  | cons l0 rest =>
    obtain ⟨r, hr⟩ := buildLevels_cons t.hasher l0
    simp [level0, ht, hr]

theorem updateTree_tree (t : MerkleTree D G) (l0 : List G) (rest : List (List G))
    (ht : t.tree = l0 :: rest) :
    (updateTree t).tree = buildLevels t.hasher l0 := by
  rw [updateTree]
  split
  · simp_all
  · rename_i l0' rest' ht'
    rw [ht] at ht'
    cases ht'
    rfl

/-- Folding is idempotent on the store: a second update pass changes
nothing. -/
theorem updateTree_idem (t : MerkleTree D G) :
    updateTree (updateTree t) = updateTree t := by
  cases ht : t.tree with
  | nil =>
    have h1 : updateTree t = { t with leavesProcessed := 0, levelCount := 0 } := by
      rw [updateTree]
      split
      · rfl
      · simp_all
    rw [h1]
    rw [updateTree]
    split
    · rfl
    · rename_i l0' rest' ht'
      simp only at ht'
      rw [ht] at ht'
      cases ht'
  | cons l0 rest =>
    obtain ⟨r, hr⟩ := buildLevels_cons t.hasher l0
    have h1 : updateTree t =
        { t with
            tree := buildLevels t.hasher l0
            leavesProcessed := l0.length
            levelCount := (buildLevels t.hasher l0).length } := by
      rw [updateTree]
      split
      · simp_all
      · rename_i l0' rest' ht'
        rw [ht] at ht'
        cases ht'
        rfl
    rw [h1]
    rw [updateTree]
    split
    · rename_i ht'
      simp only at ht'
      rw [hr] at ht'
      cases ht'
    · rename_i l0' rest' ht'
      simp only at ht'
      rw [hr] at ht'
      cases ht'
      simp [hr]

/-- The digest returned by `CurrentRoot` is the bottom-up fold of the
current leaf level. -/
theorem CurrentRoot_digest (t : MerkleTree D G) :
    (CurrentRoot t).2 = foldRoot t.hasher (level0 t) := by
  rw [CurrentRoot]
  cases ht : t.tree with
  | nil =>
    have h1 : (updateTree t).tree = [] := by
      rw [updateTree]
      split
      · rw [ht]
      · simp_all
    simp only [h1]
    simp [level0, ht, foldRoot]
  | cons l0 rest =>
    rw [updateTree_tree t l0 rest ht, buildLevels_top]
    simp [level0, ht]

/-- A free (syntactic) digest type: hashing is constructor application, so
distinct hash computations stay distinct.  Used to instantiate the claims
at concrete inputs. -/
inductive TestDigest where
  | emptyD : TestDigest
  | leafD : Nat → TestDigest
  | nodeD : TestDigest → TestDigest → TestDigest
deriving DecidableEq

/-- The free hasher over `TestDigest`, with `Nat` leaf records. -/
def testHasher : Hasher Nat TestDigest :=
  { hashEmpty := TestDigest.emptyD
    hashLeaf := TestDigest.leafD
    hashChildren := TestDigest.nodeD }

/-- The five-leaf example tree of MerkleTree.h lines 132-152. -/
def exTree : MerkleTree Nat TestDigest :=
  addLeaves (emptyTree testHasher) [0, 1, 2, 3, 4]

/-- Claim C1: for every number of leaves and every leaf sequence, the digest
`CurrentRoot()` returns after appending all the leaves with `AddLeaf` equals
the direct recursive `MTH` of the leaf digests (split at the largest power
of two strictly below the size, combined with `HashChildren`); in
particular with no leaves appended `CurrentRoot()` returns `HashEmpty()`. -/
theorem claim_C1_root_correctness (H : Hasher D G) (ds : List D) :
    (CurrentRoot (addLeaves (emptyTree H) ds)).2 = MTH H (ds.map H.hashLeaf) ∧
    (CurrentRoot (emptyTree H)).2 = H.hashEmpty := by
  constructor
  · rw [CurrentRoot_digest, addLeaves_hasher, addLeaves_level0]
    rw [show (emptyTree H).hasher = H from rfl,
      show level0 (emptyTree H) = [] from rfl, List.nil_append,
      foldRoot_eq_MTH]
  · rw [CurrentRoot_digest,
      show (emptyTree H).hasher = H from rfl,
      show level0 (emptyTree H) = [] from rfl]
    simp only [foldRoot]

/-- Claim C2: for `m` up to the current leaf count, `RootAtSnapshot(m)` is
`MTH` of the first `m` leaf digests (the recursive rule of `MTH` gives the
empty digest for `m = 0`, the lone leaf digest for `m = 1` and otherwise
the power-of-two split), and is unchanged by leaves appended after the
`m`-th; a snapshot beyond the current leaf count yields the empty result. -/
theorem claim_C2_snapshot_correctness (t : MerkleTree D G) (m : Nat) :
    (m ≤ LeafCount t →
      RootAtSnapshot t m = some (MTH t.hasher ((level0 t).take m)) ∧
      ∀ ds : List D, RootAtSnapshot (addLeaves t ds) m = RootAtSnapshot t m) ∧
    (LeafCount t < m → RootAtSnapshot t m = none) := by
  constructor
  · intro hm
    constructor
    · rw [RootAtSnapshot, if_neg (by omega)]
    · intro ds
      have hc : LeafCount (addLeaves t ds) = LeafCount t + ds.length :=
        addLeaves_LeafCount t ds
      rw [RootAtSnapshot, RootAtSnapshot, if_neg (by omega), if_neg (by omega),
        addLeaves_hasher, addLeaves_level0,
        List.take_append_of_le_length (by rw [← LeafCount_eq_length_level0]; omega)]
  · intro hm
    rw [RootAtSnapshot, if_pos hm]

theorem claim_C2_witness :
    3 ≤ LeafCount exTree ∧
    RootAtSnapshot exTree 3 = some (MTH testHasher ((level0 exTree).take 3)) ∧
    RootAtSnapshot (addLeaves exTree [9]) 3 = RootAtSnapshot exTree 3 :=
  ⟨by decide,
    ((claim_C2_snapshot_correctness exTree 3).1 (by decide)).1,
    ((claim_C2_snapshot_correctness exTree 3).1 (by decide)).2 [9]⟩

/-- Claim C3 (inclusion soundness): for a valid pair `1 ≤ leaf ≤ snapshot ≤
LeafCount`, folding the leaf's own stored digest through the entries of
`PathToRootAtSnapshot(leaf, snapshot)` in order — `HashChildren(running,
entry)` for a right-sibling entry, `HashChildren(entry, running)` for a
left-sibling entry, per the branch that emitted the entry — produces
exactly `RootAtSnapshot(snapshot)`. -/
theorem claim_C3_inclusion_soundness (t : MerkleTree D G) (leaf snapshot : Nat)
    (d : G) (h1 : 1 ≤ leaf) (h2 : leaf ≤ snapshot) (h3 : snapshot ≤ LeafCount t)
    (hd : LeafHashIdx t leaf = some d) :
    RootAtSnapshot t snapshot
      = some (foldProof t.hasher d (PathToRootAtSnapshot t leaf snapshot)
          (pathSides (leaf - 1) snapshot)) := by
  have hlen : ((level0 t).take snapshot).length = snapshot := by
    rw [List.length_take, ← LeafCount_eq_length_level0]
    omega
  have hd' : (level0 t)[leaf - 1]? = some d := by
    rw [LeafHashIdx, if_neg (by omega)] at hd
    exact hd
  have hd2 : ((level0 t).take snapshot)[leaf - 1]? = some d := by
    rw [List.getElem?_take_of_lt (by omega)]
    exact hd'
  have hfold := PATH_fold t.hasher (leaf - 1) ((level0 t).take snapshot) d hd2
  rw [hlen] at hfold
  rw [RootAtSnapshot, if_neg (by omega), PathToRootAtSnapshot, if_neg (by omega),
    hfold]

theorem claim_C3_witness :
    (1 ≤ 1 ∧ 1 ≤ 5 ∧ 5 ≤ LeafCount exTree ∧
      LeafHashIdx exTree 1 = some (TestDigest.leafD 0)) ∧
    RootAtSnapshot exTree 5
      = some (foldProof testHasher (TestDigest.leafD 0)
          (PathToRootAtSnapshot exTree 1 5) (pathSides 0 5)) :=
  ⟨⟨by decide, by decide, by decide, by decide⟩,
    claim_C3_inclusion_soundness exTree 1 5 (TestDigest.leafD 0)
      (by decide) (by decide) (by decide) (by decide)⟩

/-- Claim C4 (consistency soundness): for a valid pair `0 < snapshot1 <
snapshot2 ≤ LeafCount`, folding `RootAtSnapshot(snapshot1)` as the initial
running value through the entries of `SnapshotConsistency(snapshot1,
snapshot2)` in order, each entry combined in the manner determined by the
SUBPROOF branch that emitted it (right sibling, left sibling, or revealed
anchor in the non-complete base case), produces exactly
`RootAtSnapshot(snapshot2)`. -/
theorem claim_C4_consistency_soundness (t : MerkleTree D G) (s1 s2 : Nat)
    (r1 : G) (h1 : 1 ≤ s1) (h2 : s1 < s2) (h3 : s2 ≤ LeafCount t)
    (hr : RootAtSnapshot t s1 = some r1) :
    RootAtSnapshot t s2
      = some (foldProof t.hasher r1 (SnapshotConsistency t s1 s2)
          (subproofSides s1 s2 true)) := by
  have hlen : ((level0 t).take s2).length = s2 := by
    rw [List.length_take, ← LeafCount_eq_length_level0]
    omega
  have hr' : r1 = MTH t.hasher ((level0 t).take s1) := by
    rw [RootAtSnapshot, if_neg (by omega)] at hr
    exact (Option.some.inj hr).symm
  have hr2 : r1 = MTH t.hasher (((level0 t).take s2).take s1) := by
    rw [List.take_take, Nat.min_eq_left (by omega)]
    exact hr'
  have hfold := SUBPROOF_fold t.hasher s1 ((level0 t).take s2) true r1 h1
    (by omega) (fun _ => hr2)
  rw [hlen] at hfold
  rw [RootAtSnapshot, if_neg (by omega), SnapshotConsistency, if_neg (by omega),
    hfold]

theorem claim_C4_witness :
    (1 ≤ 3 ∧ 3 < 5 ∧ 5 ≤ LeafCount exTree) ∧
    RootAtSnapshot exTree 5
      = some (foldProof testHasher (MTH testHasher ((level0 exTree).take 3))
          (SnapshotConsistency exTree 3 5) (subproofSides 3 5 true)) :=
  ⟨⟨by decide, by decide, by decide⟩,
    claim_C4_consistency_soundness exTree 3 5 (MTH testHasher ((level0 exTree).take 3))
      (by decide) (by decide) (by decide)
      (by rw [RootAtSnapshot, if_neg (by decide)]; rfl)⟩

/-- Claim C5: `AddLeaf(data)` hashes the record with `HashLeaf`, appends the
digest to level 0 of the store, returns the new 1-based position (the leaf
count after the append), leaves every level above 0 untouched (folding is
deferred: the cursor and cached level count are unchanged too), and never
fails (it is a total function). -/
theorem claim_C5_addleaf (t : MerkleTree D G) (data : D) :
    (AddLeaf t data).2 = LeafCount t + 1 ∧
    LeafCount (AddLeaf t data).1 = LeafCount t + 1 ∧
    level0 (AddLeaf t data).1 = level0 t ++ [t.hasher.hashLeaf data] ∧
    (AddLeaf t data).1.tree.tail = t.tree.tail ∧
    (AddLeaf t data).1.hasher = t.hasher ∧
    (AddLeaf t data).1.leavesProcessed = t.leavesProcessed ∧
    (AddLeaf t data).1.levelCount = t.levelCount := by
  cases ht : t.tree <;> simp [AddLeaf, LeafCount, level0, ht]

/-- Claim C6: `SnapshotConsistency(snapshot1, snapshot2)` returns the empty
sequence whenever `snapshot1 = 0`, `snapshot1 ≥ snapshot2`, or either
snapshot exceeds the current leaf count; such a failed request performs no
work on the store (the operation reads the tree state and returns only the
proof sequence, so the observable state is unaffected by construction). -/
theorem claim_C6_consistency_guards (t : MerkleTree D G) (s1 s2 : Nat)
    (h : s1 = 0 ∨ s2 ≤ s1 ∨ LeafCount t < s1 ∨ LeafCount t < s2) :
    SnapshotConsistency t s1 s2 = [] := by
  rw [SnapshotConsistency, if_pos (by omega)]

theorem claim_C6_witness :
    ((3 = 0 ∨ 2 ≤ 3 ∨ LeafCount exTree < 3 ∨ LeafCount exTree < 2) ∧
      SnapshotConsistency exTree 3 2 = []) ∧
    ((0 = 0 ∨ 5 ≤ 0 ∨ LeafCount exTree < 0 ∨ LeafCount exTree < 5) ∧
      SnapshotConsistency exTree 0 5 = []) :=
  ⟨⟨by decide, claim_C6_consistency_guards exTree 3 2 (by decide)⟩,
    ⟨by decide, claim_C6_consistency_guards exTree 0 5 (by decide)⟩⟩

/-- Claim C7: `PathToRootAtSnapshot(leaf, snapshot)` returns the empty
sequence whenever `leaf = 0`, `leaf > snapshot`, or `snapshot` exceeds the
current leaf count; and in the valid single-node case `leaf = snapshot = 1`
the path is also empty, because the leaf is itself the subtree root. -/
theorem claim_C7_path_guards (t : MerkleTree D G) (leaf snapshot : Nat) :
    ((leaf = 0 ∨ snapshot < leaf ∨ LeafCount t < snapshot) →
      PathToRootAtSnapshot t leaf snapshot = []) ∧
    (1 ≤ LeafCount t → PathToRootAtSnapshot t 1 1 = []) := by
  constructor
  · intro h
    rw [PathToRootAtSnapshot, if_pos h]
  · intro h
    rw [PathToRootAtSnapshot, if_neg (by omega), PATH,
      dif_pos (by rw [List.length_take]; omega)]

theorem claim_C7_witness :
    (1 ≤ LeafCount exTree ∧ PathToRootAtSnapshot exTree 1 1 = []) ∧
    ((0 = 0 ∨ (3 : Nat) < 0 ∨ LeafCount exTree < 3) ∧
      PathToRootAtSnapshot exTree 0 3 = []) :=
  ⟨⟨by decide, (claim_C7_path_guards exTree 1 1).2 (by decide)⟩,
    ⟨by decide, (claim_C7_path_guards exTree 0 3).1 (by decide)⟩⟩

/-- Claim C8 (store invariant): once the store is folded up to a leaf count
`n ≥ 1`, every materialised level equals the iterated pairwise fold of the
leaf level; level `k` holds exactly `⌈n / 2^k⌉` nodes; each node of level
`k+1` is either `HashChildren` of its two level-`k` children or, as the
last node over an odd-count level, a verbatim copy of the lone unpaired
child; and a node whose full subtree lies within the first `n` leaves (both
children frozen) keeps its value under any later appends. -/
theorem claim_C8_store_invariant (t : MerkleTree D G) (hn : 1 ≤ LeafCount t) :
    (∀ k : Nat, k < (updateTree t).tree.length →
      (updateTree t).tree.getD k [] = levelK t.hasher (level0 t) k) ∧
    (∀ k : Nat, k < (updateTree t).tree.length →
      ((updateTree t).tree.getD k []).length
        = (LeafCount t + 2 ^ k - 1) / 2 ^ k) ∧
    (∀ k j : Nat, k + 1 < (updateTree t).tree.length →
      j < ((updateTree t).tree.getD (k + 1) []).length →
      ((updateTree t).tree.getD (k + 1) []).getD j t.hasher.hashEmpty
        = if 2 * j + 1 < ((updateTree t).tree.getD k []).length then
            t.hasher.hashChildren
              (((updateTree t).tree.getD k []).getD (2 * j) t.hasher.hashEmpty)
              (((updateTree t).tree.getD k []).getD (2 * j + 1) t.hasher.hashEmpty)
          else ((updateTree t).tree.getD k []).getD (2 * j) t.hasher.hashEmpty) ∧
    (∀ (ds : List D) (k j : Nat), (j + 1) * 2 ^ k ≤ LeafCount t →
      (levelK t.hasher (level0 (addLeaves t ds)) k).getD j t.hasher.hashEmpty
        = (levelK t.hasher (level0 t) k).getD j t.hasher.hashEmpty) := by
  obtain ⟨l0, rest, ht⟩ : ∃ l0 rest, t.tree = l0 :: rest := by
    cases ht : t.tree with
    | nil => simp [LeafCount, ht] at hn
    | cons a b => exact ⟨a, b, rfl⟩
  have hl0 : level0 t = l0 := by rw [level0, ht]; rfl
  have hcount : LeafCount t = l0.length := by rw [LeafCount, ht]
  have htree : (updateTree t).tree = buildLevels t.hasher l0 :=
    updateTree_tree t l0 rest ht
  have hlevel : ∀ k : Nat, k < (updateTree t).tree.length →
      (updateTree t).tree.getD k [] = levelK t.hasher (level0 t) k := by
    intro k hk
    rw [htree] at hk ⊢
    rw [buildLevels_getD t.hasher l0 k hk, hl0]
  refine ⟨hlevel, ?_, ?_, ?_⟩
  · intro k hk
    rw [hlevel k hk, hl0, hcount, levelK_length]
  · intro k j hk1 hj
    have hk : k < (updateTree t).tree.length := by omega
    rw [hlevel (k + 1) hk1] at hj ⊢
    rw [hlevel k hk]
    exact foldLevel_getD t.hasher t.hasher.hashEmpty (levelK t.hasher (level0 t) k) j hj
  · intro ds k j hfr
    have hA : (l0.take ((j + 1) * 2 ^ k)).length = (j + 1) * 2 ^ k := by
      rw [List.length_take]
      omega
    have hdvd : 2 ^ k ∣ (l0.take ((j + 1) * 2 ^ k)).length := by
      rw [hA]
      exact ⟨j + 1, by ring⟩
    have hlenA : (levelK t.hasher (l0.take ((j + 1) * 2 ^ k)) k).length = j + 1 := by
      rw [levelK_length_dvd t.hasher _ k hdvd, hA,
        Nat.mul_div_cancel _ (Nat.two_pow_pos k)]
    have hd1 : l0 = l0.take ((j + 1) * 2 ^ k) ++ l0.drop ((j + 1) * 2 ^ k) :=
      (List.take_append_drop _ _).symm
    have hd2 : level0 (addLeaves t ds)
        = l0.take ((j + 1) * 2 ^ k)
          ++ (l0.drop ((j + 1) * 2 ^ k) ++ ds.map t.hasher.hashLeaf) := by
      rw [addLeaves_level0, hl0]
      conv_lhs => rw [hd1]
      rw [List.append_assoc]
    rw [hd2, hl0]
    conv_rhs => rw [hd1]
    rw [levelK_append t.hasher _ _ k hdvd, levelK_append t.hasher _ _ k hdvd,
      List.getD_append _ _ _ j (by omega), List.getD_append _ _ _ j (by omega)]

theorem claim_C8_witness :
    1 ≤ LeafCount exTree ∧
    ((updateTree exTree).tree.getD 1 []).length
      = (LeafCount exTree + 2 ^ 1 - 1) / 2 ^ 1 :=
  ⟨by decide,
    (claim_C8_store_invariant exTree (by decide)).2.1 1
      (by simp [updateTree, exTree, addLeaves, AddLeaf, emptyTree, buildLevels,
        foldLevel])⟩

/-- Claim C9 (idempotence): a second `CurrentRoot()` call with no
intervening `AddLeaf` returns the same digest, and performs no further
change to the store — the state after the second call equals the state
after the first, so any number of repeated calls return the same digest. -/
theorem claim_C9_idempotence (t : MerkleTree D G) :
    (CurrentRoot (CurrentRoot t).1).2 = (CurrentRoot t).2 ∧
    (CurrentRoot (CurrentRoot t).1).1 = (CurrentRoot t).1 := by
  constructor
  · rw [show (CurrentRoot t).1 = updateTree t from rfl, CurrentRoot_digest,
      CurrentRoot_digest, updateTree_hasher, updateTree_level0]
  · show updateTree (updateTree t) = updateTree t
    exact updateTree_idem t

/-- Claim C10: the `LeafHash` overload on raw record bytes returns
`HashLeaf(data)` and leaves the tree state exactly as it was — the state
component it passes through is the unmodified tree, so the leaf count,
every stored node and every later operation are as without the call. -/
theorem claim_C10_leafhash_frame (t : MerkleTree D G) (data : D) :
    (LeafHashData t data).2 = t.hasher.hashLeaf data ∧
    (LeafHashData t data).1 = t :=
  ⟨rfl, rfl⟩

end Merkle
